import Mathlib

/-
Verification development for the point-cloud-rendering repository.

Shallow embedding conventions:
* JavaScript numbers (IEEE doubles / Float32Array cells) are modelled as
  rationals (ℚ); the verified claims concern the algebraic structure of the
  code, not floating point rounding.
* Typed arrays are modelled as lists; an out-of-range read is modelled with a
  default via List.getD (the claims never exercise out-of-range reads).
* A value that JavaScript parsing can turn into NaN is modelled as
  Option ℚ (none = NaN).
-/

/-- Viewport record of point-worker.ts: width and height in device pixels. -/
structure Viewport where
  width : ℚ
  height : ℚ
deriving DecidableEq

/-- A numeric token: some q is a parsed number, none models NaN. -/
abbrev Token := Option ℚ

/- ===== Ray casting (point-worker.ts, isPointInPolygon) ===== -/

/-- Rotate a list right by one: the previous-vertex list. `prevRot [p0, …, pn]`
is `[pn, p0, …, p(n-1)]`, so zipping a vertex list with its `prevRot` pairs
each vertex `i` with vertex `j = i - 1 mod n`, exactly the `(i, j)` index pair
of the source loop `for (let i = 0, j = n - 1; i < n; j = i++)`. -/
def prevRot : List α → List α
  | [] => []
  | x :: xs => (x :: xs).getLast (List.cons_ne_nil x xs) :: (x :: xs).dropLast

/-- The edge list swept by the ray-casting loop: each current vertex paired
with the previous one (wrapping the first vertex back to the last). -/
def polygonEdges (path : List (ℚ × ℚ)) : List ((ℚ × ℚ) × (ℚ × ℚ)) :=
  path.zip (prevRot path)

/-- The edge-crossing condition of the source:
`yi > py !== yj > py && px < ((xj - xi) * (py - yi)) / (yj - yi) + xi`.
The first component of the pair is the current vertex `(xi, yi)`, the second
the previous vertex `(xj, yj)`. -/
def edgeCross (px py : ℚ) (e : (ℚ × ℚ) × (ℚ × ℚ)) : Bool :=
  (decide (e.1.2 > py) != decide (e.2.2 > py)) &&
    decide (px < (e.2.1 - e.1.1) * (py - e.1.2) / (e.2.2 - e.1.2) + e.1.1)

/-- isPointInPolygon of point-worker.ts: fold the inside flag over all edges,
toggling it whenever the edge-crossing condition holds. -/
def isPointInPolygon (px py : ℚ) (path : List (ℚ × ℚ)) : Bool :=
  (polygonEdges path).foldl
    (fun inside e => if edgeCross px py e then !inside else inside) false

/- ===== Lasso bounding box (handleSelect preprocessing) =====
The source initialises min/max with ±Infinity and folds over the path; for the
non-empty paths that reach this code (the guard requires ≥ 3 points) this
equals folding from the first path point, which is how it is modelled here. -/

/-- Minimum x over the lasso path. -/
def pathMinX : List (ℚ × ℚ) → ℚ
  | [] => 0
  | p :: ps => ps.foldl (fun m q => min m q.1) p.1

/-- Maximum x over the lasso path. -/
def pathMaxX : List (ℚ × ℚ) → ℚ
  | [] => 0
  | p :: ps => ps.foldl (fun m q => max m q.1) p.1

/-- Minimum y over the lasso path. -/
def pathMinY : List (ℚ × ℚ) → ℚ
  | [] => 0
  | p :: ps => ps.foldl (fun m q => min m q.2) p.2

/-- Maximum y over the lasso path. -/
def pathMaxY : List (ℚ × ℚ) → ℚ
  | [] => 0
  | p :: ps => ps.foldl (fun m q => max m q.2) p.2

/- ===== Projection (handleSelect inner loop, point-worker.ts 216-233) ===== -/

/-- The per-point projection of handleSelect: multiply the homogeneous point
`(x, y, z, 1)` by the column-major matrix (prefetched as m00..m33), reject when
`clipW = 0`, divide by `clipW` (the source computes `invW = 1 / clipW` and
multiplies), reject when `ndcZ ≥ 1`, and map NDC to screen pixels (the
source's `0.5` is the exact rational `1 / 2`). `none` models `continue`. -/
def projectPoint (vpm : List ℚ) (vp : Viewport) (x y z : ℚ) : Option (ℚ × ℚ) :=
  let m00 := vpm.getD 0 0
  let m01 := vpm.getD 1 0
  let m02 := vpm.getD 2 0
  let m03 := vpm.getD 3 0
  let m10 := vpm.getD 4 0
  let m11 := vpm.getD 5 0
  let m12 := vpm.getD 6 0
  let m13 := vpm.getD 7 0
  let m20 := vpm.getD 8 0
  let m21 := vpm.getD 9 0
  let m22 := vpm.getD 10 0
  let m23 := vpm.getD 11 0
  let m30 := vpm.getD 12 0
  let m31 := vpm.getD 13 0
  let m32 := vpm.getD 14 0
  let m33 := vpm.getD 15 0
  let clipX := m00 * x + m10 * y + m20 * z + m30
  let clipY := m01 * x + m11 * y + m21 * z + m31
  let clipZ := m02 * x + m12 * y + m22 * z + m32
  let clipW := m03 * x + m13 * y + m23 * z + m33
  if clipW = 0 then none
  else
    let invW := 1 / clipW
    let ndcX := clipX * invW
    let ndcY := clipY * invW
    let ndcZ := clipZ * invW
    if ndcZ ≥ 1 then none
    else some ((ndcX + 1) * (1 / 2) * vp.width, (-ndcY + 1) * (1 / 2) * vp.height)

/-- The body of the sweep loop for one index `i`: read `positions[i*3 ..]`,
project, apply the bounding-box fast rejection, then the polygon test.
`true` means the index is pushed into the selection buffer. -/
def selectPoint (positions : List ℚ) (vpm : List ℚ) (vp : Viewport)
    (path : List (ℚ × ℚ)) (i : ℕ) : Bool :=
  match projectPoint vpm vp (positions.getD (i * 3) 0)
      (positions.getD (i * 3 + 1) 0) (positions.getD (i * 3 + 2) 0) with
  | none => false
  | some (screenX, screenY) =>
    if screenX < pathMinX path ∨ screenX > pathMaxX path
        ∨ screenY < pathMinY path ∨ screenY > pathMaxY path then false
    else isPointInPolygon screenX screenY path

/-- handleSelect of point-worker.ts: early exit on a degenerate query, then a
sweep over `[rangeStart, rangeEnd)` (defaults `0` / `pointCount`), collecting
the indices whose point passes the kernel test in ascending order. -/
def handleSelect (positions : List ℚ) (pointCount : ℕ) (path : List (ℚ × ℚ))
    (vpm : List ℚ) (vp : Viewport) (startIndex endIndex : Option ℕ) : List ℕ :=
  if path.length < 3 ∨ vp.width = 0 ∨ vp.height = 0 ∨ vpm.length ≠ 16 then []
  else
    (List.range' (startIndex.getD 0) (endIndex.getD pointCount - startIndex.getD 0)).filter
      (selectPoint positions vpm vp path)

/-- Modelled from the spec: the loop body of the sweep with the bounding-box
pre-filter removed ("the set returned by the same sweep with the pre-filter
removed"); identical to selectPoint except that it always runs containment. -/
def selectPointNoBBox (positions : List ℚ) (vpm : List ℚ) (vp : Viewport)
    (path : List (ℚ × ℚ)) (i : ℕ) : Bool :=
  match projectPoint vpm vp (positions.getD (i * 3) 0)
      (positions.getD (i * 3 + 1) 0) (positions.getD (i * 3 + 2) 0) with
  | none => false
  | some (screenX, screenY) => isPointInPolygon screenX screenY path

/-- Modelled from the spec: handleSelect with the bounding-box pre-filter
removed, used as the reference sweep for the filter-equivalence claim. -/
def handleSelectNoBBox (positions : List ℚ) (pointCount : ℕ)
    (path : List (ℚ × ℚ)) (vpm : List ℚ) (vp : Viewport)
    (startIndex endIndex : Option ℕ) : List ℕ :=
  if path.length < 3 ∨ vp.width = 0 ∨ vp.height = 0 ∨ vpm.length ≠ 16 then []
  else
    (List.range' (startIndex.getD 0) (endIndex.getD pointCount - startIndex.getD 0)).filter
      (selectPointNoBBox positions vpm vp path)

/- ===== Partition scheduler (parallel-point-worker-client.ts, select) ===== -/

/-- `Math.ceil(pointCount / workerCount)` over naturals. -/
def chunkSize (pointCount workerCount : ℕ) : ℕ :=
  (pointCount + workerCount - 1) / workerCount

/-- `startIndex = index * chunkSize` for worker `index`. -/
def workerStart (pointCount workerCount k : ℕ) : ℕ :=
  k * chunkSize pointCount workerCount

/-- `endIndex = Math.min(startIndex + chunkSize, pointCount)`. -/
def workerEnd (pointCount workerCount k : ℕ) : ℕ :=
  min (workerStart pointCount workerCount k + chunkSize pointCount workerCount)
    pointCount

/-- The index list worker `k` contributes to one select call: an empty result
when its chunk starts at or beyond the point count (the client resolves it
without dispatching), otherwise the worker-side sweep over its range. -/
def workerResult (positions : List ℚ) (pointCount workerCount : ℕ)
    (path : List (ℚ × ℚ)) (vpm : List ℚ) (vp : Viewport) (k : ℕ) : List ℕ :=
  if pointCount ≤ workerStart pointCount workerCount k then []
  else
    handleSelect positions pointCount path vpm vp
      (some (workerStart pointCount workerCount k))
      (some (workerEnd pointCount workerCount k))

/-- The merge step of ParallelPointWorkerClient.select: collect the non-empty
partial results in worker order 0..workerCount-1 and concatenate them. -/
def clientSelect (positions : List ℚ) (pointCount workerCount : ℕ)
    (path : List (ℚ × ℚ)) (vpm : List ℚ) (vp : Viewport) : List ℕ :=
  (((List.range workerCount).map
      (workerResult positions pointCount workerCount path vpm vp)).filter
    (fun r => 0 < r.length)).flatten

/- ===== Helper lemmas: xor folds and the cyclic parity of sign changes ===== -/

/-- Fold of Bool.xor over a list, starting from false. -/
def xorFold (l : List Bool) : Bool := l.foldr Bool.xor false

theorem xorFold_nil : xorFold [] = false := rfl

theorem xorFold_cons (a : Bool) (l : List Bool) :
    xorFold (a :: l) = Bool.xor a (xorFold l) := rfl

theorem bool_xor_ac : ∀ a b c d : Bool,
    Bool.xor (Bool.xor a b) (Bool.xor c d) = Bool.xor (Bool.xor a c) (Bool.xor b d) := by
  decide

theorem foldr_xor_init (l : List Bool) (b : Bool) :
    l.foldr Bool.xor b = Bool.xor (xorFold l) b := by
  induction l with
  | nil => simp [xorFold]
  | cons a t ih =>
    simp only [List.foldr_cons, ih, xorFold_cons, Bool.xor_assoc]

theorem xorFold_append (u v : List Bool) :
    xorFold (u ++ v) = Bool.xor (xorFold u) (xorFold v) := by
  unfold xorFold
  rw [List.foldr_append]
  exact foldr_xor_init u (v.foldr Bool.xor false)

theorem xorFold_zipWith (u v : List Bool) (h : u.length = v.length) :
    xorFold (List.zipWith Bool.xor u v) = Bool.xor (xorFold u) (xorFold v) := by
  induction u generalizing v with
  | nil =>
    cases v with
    | nil => rfl
    | cons b s => simp at h
  | cons a t ih =>
    cases v with
    | nil => simp at h
    | cons b s =>
      simp only [List.zipWith_cons_cons, xorFold_cons]
      rw [ih s (by simpa using h)]
      exact bool_xor_ac a b (xorFold t) (xorFold s)

theorem length_prevRot (l : List α) : (prevRot l).length = l.length := by
  cases l with
  | nil => rfl
  | cons x xs => simp [prevRot, List.length_dropLast]

theorem mem_of_mem_prevRot {l : List α} {a : α} (h : a ∈ prevRot l) : a ∈ l := by
  cases l with
  | nil => exact absurd h (by simp [prevRot])
  | cons x xs =>
    simp only [prevRot, List.mem_cons] at h
    rcases h with h | h
    · exact h ▸ List.getLast_mem _
    · exact List.mem_of_mem_dropLast h

theorem xorFold_map_prevRot (f : α → Bool) (l : List α) :
    xorFold ((prevRot l).map f) = xorFold (l.map f) := by
  cases l with
  | nil => rfl
  | cons x xs =>
    have hne : x :: xs ≠ [] := List.cons_ne_nil x xs
    conv_rhs => rw [← List.dropLast_append_getLast hne]
    rw [List.map_append, xorFold_append]
    simp only [prevRot, List.map_cons, xorFold_cons, List.map_nil, xorFold_nil,
      Bool.xor_false]
    exact Bool.xor_comm _ _

theorem map_zip_xor (f : α → Bool) (u v : List α) :
    ((u.zip v).map fun e => Bool.xor (f e.1) (f e.2))
      = List.zipWith (fun a b => Bool.xor (f a) (f b)) u v := by
  induction u generalizing v with
  | nil => simp
  | cons a t ih => cases v <;> simp [ih]

/-- The number of cyclic sign changes around a closed polygon is even: folding
xor over the pairwise differences of any boolean labelling of the vertices
against its one-step rotation gives false. -/
theorem xorFold_cyclic (f : α → Bool) (l : List α) :
    xorFold ((l.zip (prevRot l)).map fun e => Bool.xor (f e.1) (f e.2)) = false := by
  rw [map_zip_xor]
  rw [← List.zipWith_map Bool.xor f f l (prevRot l)]
  rw [xorFold_zipWith _ _ (by simp [length_prevRot])]
  rw [xorFold_map_prevRot]
  exact Bool.xor_self _

theorem foldl_toggle (c : α → Bool) (l : List α) (b : Bool) :
    l.foldl (fun ins e => if c e then !ins else ins) b
      = Bool.xor (xorFold (l.map c)) b := by
  induction l generalizing b with
  | nil => simp [xorFold]
  | cons a t ih =>
    simp only [List.foldl_cons, List.map_cons, xorFold_cons]
    rw [ih]
    have h1 : (if c a then !b else b) = Bool.xor (c a) b := by
      cases c a <;> cases b <;> rfl
    rw [h1]
    cases hca : c a <;> cases b <;>
      simp [Bool.xor_false, Bool.xor_true, Bool.false_xor, Bool.true_xor]

theorem isPointInPolygon_eq_xorFold (px py : ℚ) (path : List (ℚ × ℚ)) :
    isPointInPolygon px py path
      = xorFold ((polygonEdges path).map (edgeCross px py)) := by
  unfold isPointInPolygon
  rw [foldl_toggle]
  exact Bool.xor_false _

/- ===== Helper lemmas: lasso bounding box ===== -/

theorem foldlMinX_le_init (t : List (ℚ × ℚ)) (a : ℚ) :
    t.foldl (fun m q => min m q.1) a ≤ a := by
  induction t generalizing a with
  | nil => exact le_refl a
  | cons x s ih => exact le_trans (ih (min a x.1)) (min_le_left _ _)

theorem foldlMinX_le_mem :
    ∀ (t : List (ℚ × ℚ)) (a : ℚ) (p : ℚ × ℚ), p ∈ t →
      t.foldl (fun m q => min m q.1) a ≤ p.1
  | x :: s, a, p, hp => by
    rcases List.mem_cons.mp hp with h | h
    · rw [h]
      exact le_trans (foldlMinX_le_init s _) (min_le_right _ _)
    · exact foldlMinX_le_mem s (min a x.1) p h

theorem le_foldlMaxX_init (t : List (ℚ × ℚ)) (a : ℚ) :
    a ≤ t.foldl (fun m q => max m q.1) a := by
  induction t generalizing a with
  | nil => exact le_refl a
  | cons x s ih => exact le_trans (le_max_left _ _) (ih (max a x.1))

theorem le_foldlMaxX_mem :
    ∀ (t : List (ℚ × ℚ)) (a : ℚ) (p : ℚ × ℚ), p ∈ t →
      p.1 ≤ t.foldl (fun m q => max m q.1) a
  | x :: s, a, p, hp => by
    rcases List.mem_cons.mp hp with h | h
    · rw [h]
      exact le_trans (le_max_right _ _) (le_foldlMaxX_init s _)
    · exact le_foldlMaxX_mem s (max a x.1) p h

theorem foldlMinY_le_init (t : List (ℚ × ℚ)) (a : ℚ) :
    t.foldl (fun m q => min m q.2) a ≤ a := by
  induction t generalizing a with
  | nil => exact le_refl a
  | cons x s ih => exact le_trans (ih (min a x.2)) (min_le_left _ _)

theorem foldlMinY_le_mem :
    ∀ (t : List (ℚ × ℚ)) (a : ℚ) (p : ℚ × ℚ), p ∈ t →
      t.foldl (fun m q => min m q.2) a ≤ p.2
  | x :: s, a, p, hp => by
    rcases List.mem_cons.mp hp with h | h
    · rw [h]
      exact le_trans (foldlMinY_le_init s _) (min_le_right _ _)
    · exact foldlMinY_le_mem s (min a x.2) p h

theorem le_foldlMaxY_init (t : List (ℚ × ℚ)) (a : ℚ) :
    a ≤ t.foldl (fun m q => max m q.2) a := by
  induction t generalizing a with
  | nil => exact le_refl a
  | cons x s ih => exact le_trans (le_max_left _ _) (ih (max a x.2))

theorem le_foldlMaxY_mem :
    ∀ (t : List (ℚ × ℚ)) (a : ℚ) (p : ℚ × ℚ), p ∈ t →
      p.2 ≤ t.foldl (fun m q => max m q.2) a
  | x :: s, a, p, hp => by
    rcases List.mem_cons.mp hp with h | h
    · rw [h]
      exact le_trans (le_max_right _ _) (le_foldlMaxY_init s _)
    · exact le_foldlMaxY_mem s (max a x.2) p h

theorem pathMinX_le {path : List (ℚ × ℚ)} {p : ℚ × ℚ} (hp : p ∈ path) :
    pathMinX path ≤ p.1 := by
  cases path with
  | nil => cases hp
  | cons q t =>
    rcases List.mem_cons.mp hp with h | h
    · rw [h]; exact foldlMinX_le_init t q.1
    · exact foldlMinX_le_mem t q.1 p h

theorem le_pathMaxX {path : List (ℚ × ℚ)} {p : ℚ × ℚ} (hp : p ∈ path) :
    p.1 ≤ pathMaxX path := by
  cases path with
  | nil => cases hp
  | cons q t =>
    rcases List.mem_cons.mp hp with h | h
    · rw [h]; exact le_foldlMaxX_init t q.1
    · exact le_foldlMaxX_mem t q.1 p h

theorem pathMinY_le {path : List (ℚ × ℚ)} {p : ℚ × ℚ} (hp : p ∈ path) :
    pathMinY path ≤ p.2 := by
  cases path with
  | nil => cases hp
  | cons q t =>
    rcases List.mem_cons.mp hp with h | h
    · rw [h]; exact foldlMinY_le_init t q.2
    · exact foldlMinY_le_mem t q.2 p h

theorem le_pathMaxY {path : List (ℚ × ℚ)} {p : ℚ × ℚ} (hp : p ∈ path) :
    p.2 ≤ pathMaxY path := by
  cases path with
  | nil => cases hp
  | cons q t =>
    rcases List.mem_cons.mp hp with h | h
    · rw [h]; exact le_foldlMaxY_init t q.2
    · exact le_foldlMaxY_mem t q.2 p h

/- ===== The edge-crossing condition: case analysis ===== -/

theorem bool_bne_eq_xor : ∀ a b : Bool, (a != b) = Bool.xor a b := by decide

/-- When the first clause of the crossing condition holds, the edge straddles
the horizontal line through py strictly on one side. -/
theorem cross_clause_cases {py yi yj : ℚ}
    (h : (decide (yi > py) != decide (yj > py)) = true) :
    (py < yi ∧ yj ≤ py) ∨ (yi ≤ py ∧ py < yj) := by
  by_cases h1 : py < yi <;> by_cases h2 : py < yj
  · exfalso; simp [gt_iff_lt, h1, h2] at h
  · exact Or.inl ⟨h1, le_of_not_lt h2⟩
  · exact Or.inr ⟨le_of_not_lt h1, h2⟩
  · exfalso; simp [gt_iff_lt, h1, h2] at h

/-- Under the crossing clause the endpoints' y values differ and the
interpolation parameter (py - yi) / (yj - yi) lies in [0, 1]. -/
theorem crossT_bounds {py yi yj : ℚ}
    (h : (py < yi ∧ yj ≤ py) ∨ (yi ≤ py ∧ py < yj)) :
    yi ≠ yj ∧ 0 ≤ (py - yi) / (yj - yi) ∧ (py - yi) / (yj - yi) ≤ 1 := by
  rcases h with ⟨h1, h2⟩ | ⟨h1, h2⟩
  · have hd : yj - yi < 0 := by linarith
    refine ⟨by intro he; rw [he] at h1; linarith, ?_, ?_⟩
    · rw [← neg_div_neg_eq]
      exact div_nonneg (by linarith) (by linarith)
    · rw [div_le_iff_of_neg hd]
      linarith
  · have hd : 0 < yj - yi := by linarith
    refine ⟨by intro he; rw [he] at h1; linarith, ?_, ?_⟩
    · exact div_nonneg (by linarith) (by linarith)
    · rw [div_le_one hd]
      linarith

/-- A convex combination (xj - xi) * t + xi with t in [0, 1] stays between the
two endpoint x values. -/
theorem inter_mem_segment (xi xj t : ℚ) (h0 : 0 ≤ t) (h1 : t ≤ 1) :
    min xi xj ≤ (xj - xi) * t + xi ∧ (xj - xi) * t + xi ≤ max xi xj := by
  rcases le_total xi xj with hle | hle
  · constructor
    · have : xi ≤ (xj - xi) * t + xi := by nlinarith
      exact le_trans (min_le_left _ _) this
    · have : (xj - xi) * t + xi ≤ xj := by nlinarith
      exact le_trans this (le_max_right _ _)
  · constructor
    · have : xj ≤ (xj - xi) * t + xi := by nlinarith
      exact le_trans (min_le_right _ _) this
    · have : (xj - xi) * t + xi ≤ xi := by nlinarith
      exact le_trans this (le_max_left _ _)

/-- Left of the bounding box the second clause of the crossing condition is
implied by the first, so each edge contributes exactly its straddle bit. -/
theorem edgeCross_eq_first_of_left {px py : ℚ} {path : List (ℚ × ℚ)}
    (hx : px < pathMinX path) :
    ∀ e ∈ polygonEdges path,
      edgeCross px py e = (decide (e.1.2 > py) != decide (e.2.2 > py)) := by
  intro e he
  obtain ⟨pi, pj⟩ := e
  have hmem := List.of_mem_zip he
  have h1 : pi ∈ path := hmem.1
  have h2 : pj ∈ path := mem_of_mem_prevRot hmem.2
  by_cases hfc : (decide (pi.2 > py) != decide (pj.2 > py)) = true
  · obtain ⟨hne, ht0, ht1⟩ := crossT_bounds (cross_clause_cases hfc)
    have hseg := inter_mem_segment pi.1 pj.1 ((py - pi.2) / (pj.2 - pi.2)) ht0 ht1
    have hminx : pathMinX path ≤ min pi.1 pj.1 :=
      le_min (pathMinX_le h1) (pathMinX_le h2)
    have hlt : px < (pj.1 - pi.1) * (py - pi.2) / (pj.2 - pi.2) + pi.1 := by
      rw [mul_div_assoc]
      calc px < pathMinX path := hx
        _ ≤ min pi.1 pj.1 := hminx
        _ ≤ (pj.1 - pi.1) * ((py - pi.2) / (pj.2 - pi.2)) + pi.1 := hseg.1
    simp [edgeCross, hfc, hlt]
  · rw [Bool.not_eq_true] at hfc
    simp [edgeCross, hfc]

/-- Right of the bounding box no edge-crossing condition can hold. -/
theorem edgeCross_false_of_right {px py : ℚ} {path : List (ℚ × ℚ)}
    (hx : pathMaxX path < px) :
    ∀ e ∈ polygonEdges path, edgeCross px py e = false := by
  intro e he
  obtain ⟨pi, pj⟩ := e
  have hmem := List.of_mem_zip he
  have h1 : pi ∈ path := hmem.1
  have h2 : pj ∈ path := mem_of_mem_prevRot hmem.2
  by_cases hfc : (decide (pi.2 > py) != decide (pj.2 > py)) = true
  · obtain ⟨hne, ht0, ht1⟩ := crossT_bounds (cross_clause_cases hfc)
    have hseg := inter_mem_segment pi.1 pj.1 ((py - pi.2) / (pj.2 - pi.2)) ht0 ht1
    have hmaxx : max pi.1 pj.1 ≤ pathMaxX path :=
      max_le (le_pathMaxX h1) (le_pathMaxX h2)
    have hnlt : ¬ px < (pj.1 - pi.1) * (py - pi.2) / (pj.2 - pi.2) + pi.1 := by
      intro hcon
      rw [mul_div_assoc] at hcon
      have := hseg.2
      have := le_trans this hmaxx
      linarith
    simp [edgeCross, hnlt]
  · rw [Bool.not_eq_true] at hfc
    simp [edgeCross, hfc]

/-- Below the bounding box every vertex is strictly above py, so no edge
straddles the scan line. -/
theorem edgeCross_false_of_below {px py : ℚ} {path : List (ℚ × ℚ)}
    (hy : py < pathMinY path) :
    ∀ e ∈ polygonEdges path, edgeCross px py e = false := by
  intro e he
  obtain ⟨pi, pj⟩ := e
  have hmem := List.of_mem_zip he
  have h1 : pi.2 > py := lt_of_lt_of_le hy (pathMinY_le hmem.1)
  have h2 : pj.2 > py := lt_of_lt_of_le hy (pathMinY_le (mem_of_mem_prevRot hmem.2))
  simp [edgeCross, h1, h2]

/-- Above the bounding box every vertex is at or below py (strictly below in
the y ordering used by the clause), so no edge straddles the scan line. -/
theorem edgeCross_false_of_above {px py : ℚ} {path : List (ℚ × ℚ)}
    (hy : pathMaxY path < py) :
    ∀ e ∈ polygonEdges path, edgeCross px py e = false := by
  intro e he
  obtain ⟨pi, pj⟩ := e
  have hmem := List.of_mem_zip he
  have h1 : ¬ pi.2 > py := not_lt.mpr (le_of_lt (lt_of_le_of_lt (le_pathMaxY hmem.1) hy))
  have h2 : ¬ pj.2 > py :=
    not_lt.mpr (le_of_lt (lt_of_le_of_lt (le_pathMaxY (mem_of_mem_prevRot hmem.2)) hy))
  simp [edgeCross, h1, h2]

theorem xorFold_map_false (l : List α) :
    xorFold (l.map fun _ => false) = false := by
  induction l with
  | nil => rfl
  | cons a t ih =>
    rw [List.map_cons, xorFold_cons, ih]
    rfl

/-- A screen point outside the lasso's axis-aligned bounding box is never
inside the polygon: the parity of straddling edges around a closed polygon is
even, and off to the sides no crossing can be counted at all. -/
theorem outside_bbox_not_inside (px py : ℚ) (path : List (ℚ × ℚ))
    (h : px < pathMinX path ∨ px > pathMaxX path
       ∨ py < pathMinY path ∨ py > pathMaxY path) :
    isPointInPolygon px py path = false := by
  rw [isPointInPolygon_eq_xorFold]
  rcases h with hx | hx | hy | hy
  · rw [List.map_congr_left (edgeCross_eq_first_of_left hx)]
    have hbx : ∀ e ∈ polygonEdges path,
        (decide (e.1.2 > py) != decide (e.2.2 > py))
          = Bool.xor (decide (e.1.2 > py)) (decide (e.2.2 > py)) :=
      fun e _ => bool_bne_eq_xor _ _
    rw [List.map_congr_left hbx]
    exact xorFold_cyclic (fun p => decide (p.2 > py)) path
  · rw [List.map_congr_left (edgeCross_false_of_right hx)]
    exact xorFold_map_false _
  · rw [List.map_congr_left (edgeCross_false_of_below hy)]
    exact xorFold_map_false _
  · rw [List.map_congr_left (edgeCross_false_of_above hy)]
    exact xorFold_map_false _

theorem selectPoint_eq_noBBox (positions vpm : List ℚ) (vp : Viewport)
    (path : List (ℚ × ℚ)) (i : ℕ) :
    selectPoint positions vpm vp path i = selectPointNoBBox positions vpm vp path i := by
  unfold selectPoint selectPointNoBBox
  cases hp : projectPoint vpm vp (positions.getD (i * 3) 0)
      (positions.getD (i * 3 + 1) 0) (positions.getD (i * 3 + 2) 0) with
  | none => rfl
  | some s =>
    obtain ⟨sx, sy⟩ := s
    dsimp only
    by_cases hout : (sx < pathMinX path ∨ sx > pathMaxX path
        ∨ sy < pathMinY path ∨ sy > pathMaxY path)
    · rw [if_pos hout]
      exact (outside_bbox_not_inside sx sy path hout).symm
    · rw [if_neg hout]

/-- Claim C3: for every lasso polygon, transform, viewport, point buffer and
index range, the selection sweep with the axis-aligned bounding-box pre-filter
returns exactly the same index list as the same sweep with the pre-filter
removed; the filter never changes the result. -/
theorem bbox_prefilter_equivalence (positions : List ℚ) (pointCount : ℕ)
    (path : List (ℚ × ℚ)) (vpm : List ℚ) (vp : Viewport)
    (startIndex endIndex : Option ℕ) :
    handleSelect positions pointCount path vpm vp startIndex endIndex
      = handleSelectNoBBox positions pointCount path vpm vp startIndex endIndex := by
  unfold handleSelect handleSelectNoBBox
  by_cases hg : (path.length < 3 ∨ vp.width = 0 ∨ vp.height = 0 ∨ vpm.length ≠ 16)
  · rw [if_pos hg, if_pos hg]
  · rw [if_neg hg, if_neg hg]
    exact List.filter_congr fun i _ => selectPoint_eq_noBBox positions vpm vp path i

/-- Claim C6: in the ray-casting edge loop the divisor `yj - yi` is nonzero
whenever the first clause of the crossing condition holds (so the division is
never by zero there), and a degenerate horizontal edge (`yi = yj`) never
toggles the inside flag. -/
theorem rayCast_division_guard (px py xi yi xj yj : ℚ) :
    ((decide (yi > py) != decide (yj > py)) = true → yj - yi ≠ 0)
    ∧ (yi = yj → edgeCross px py ((xi, yi), (xj, yj)) = false) := by
  constructor
  · intro h
    have hne := (crossT_bounds (cross_clause_cases h)).1
    exact sub_ne_zero.mpr (Ne.symm hne)
  · intro h
    subst h
    simp [edgeCross]

theorem rayCast_division_guard_witness :
    ((3 : ℚ) - 1 ≠ 0) ∧ edgeCross 0 0 ((5, 2), (7, 2)) = false :=
  ⟨(rayCast_division_guard 0 2 0 1 0 3).1 (by decide),
   (rayCast_division_guard 0 0 5 2 7 2).2 rfl⟩

/-- Claim C5: a query with fewer than 3 lasso points, or a zero-width or
zero-height viewport, or a transform whose length is not 16, returns an empty
index result, and the result does not depend on the point buffer at all (the
sweep never reads it). -/
theorem handleSelect_early_exit (positions : List ℚ) (pointCount : ℕ)
    (path : List (ℚ × ℚ)) (vpm : List ℚ) (vp : Viewport)
    (startIndex endIndex : Option ℕ)
    (h : path.length < 3 ∨ vp.width = 0 ∨ vp.height = 0 ∨ vpm.length ≠ 16) :
    handleSelect positions pointCount path vpm vp startIndex endIndex = []
    ∧ ∀ positions' : List ℚ,
        handleSelect positions' pointCount path vpm vp startIndex endIndex
          = handleSelect positions pointCount path vpm vp startIndex endIndex := by
  constructor
  · unfold handleSelect
    rw [if_pos h]
  · intro positions'
    unfold handleSelect
    rw [if_pos h, if_pos h]

theorem handleSelect_early_exit_witness :
    handleSelect [1, 2, 3] 1 [] [] ⟨100, 100⟩ none none = [] :=
  (handleSelect_early_exit [1, 2, 3] 1 [] [] ⟨100, 100⟩ none none
    (Or.inl (by decide))).1

/- ===== Partition scheduler lemmas ===== -/

theorem chunkSize_pos {N W : ℕ} (hW : 0 < W) (hN : 0 < N) :
    0 < chunkSize N W := by
  unfold chunkSize
  rw [Nat.lt_iff_add_one_le, Nat.one_le_div_iff hW]
  omega

theorem le_mul_chunkSize {N W : ℕ} (hW : 0 < W) : N ≤ W * chunkSize N W := by
  have h1 := Nat.div_add_mod (N + W - 1) W
  have h2 : (N + W - 1) % W < W := Nat.mod_lt _ hW
  unfold chunkSize
  generalize hq : (N + W - 1) / W = q at h1 ⊢
  generalize hM : W * q = M at h1 ⊢
  generalize hr : (N + W - 1) % W = r at h1 h2
  omega

/-- Claim C1: with `chunkSize = ceil(N / W)`, every index below the point
count lies in exactly one worker's half-open range, every index in some range
lies below the point count, and a worker whose range starts at or beyond the
point count contributes an empty result. -/
theorem scheduler_partition_exact (N W : ℕ) (hW : 1 ≤ W) :
    (∀ i, i < N → ∃! k, k < W ∧ workerStart N W k ≤ i ∧ i < workerEnd N W k)
    ∧ (∀ k i, workerStart N W k ≤ i → i < workerEnd N W k → i < N)
    ∧ (∀ k (positions : List ℚ) (path : List (ℚ × ℚ)) (vpm : List ℚ)
        (vp : Viewport), N ≤ workerStart N W k →
        workerResult positions N W path vpm vp k = []) := by
  have hWpos : 0 < W := hW
  refine ⟨?_, ?_, ?_⟩
  · intro i hi
    have hN : 0 < N := by omega
    have hcpos : 0 < chunkSize N W := chunkSize_pos hWpos hN
    have hkey : N ≤ W * chunkSize N W := le_mul_chunkSize hWpos
    refine ⟨i / chunkSize N W, ⟨?_, ?_, ?_⟩, ?_⟩
    · exact (Nat.div_lt_iff_lt_mul hcpos).mpr (lt_of_lt_of_le hi hkey)
    · exact Nat.div_mul_le_self i (chunkSize N W)
    · apply lt_min
      · have h1 := Nat.div_add_mod i (chunkSize N W)
        have h2 : i % chunkSize N W < chunkSize N W := Nat.mod_lt _ hcpos
        show i < i / chunkSize N W * chunkSize N W + chunkSize N W
        rw [Nat.mul_comm]
        generalize hq : i / chunkSize N W = q at h1 ⊢
        generalize hM : chunkSize N W * q = M at h1 ⊢
        generalize hr : i % chunkSize N W = r at h1 h2
        omega
      · exact hi
    · rintro k' ⟨hk'W, hle, hlt⟩
      have hlt' : i < k' * chunkSize N W + chunkSize N W :=
        lt_of_lt_of_le hlt (min_le_left _ _)
      have hle2 : k' ≤ i / chunkSize N W := (Nat.le_div_iff_mul_le hcpos).mpr hle
      have hlt2 : i / chunkSize N W < k' + 1 :=
        (Nat.div_lt_iff_lt_mul hcpos).mpr (by rw [Nat.succ_mul]; exact hlt')
      omega
  · intro k i _ h2
    exact lt_of_lt_of_le h2 (min_le_right _ _)
  · intro k positions path vpm vp hk
    unfold workerResult
    rw [if_pos hk]

theorem scheduler_partition_exact_witness :
    (7 : ℕ) < 10
    ∧ (∃! k, k < 4 ∧ workerStart 10 4 k ≤ 7 ∧ 7 < workerEnd 10 4 k) :=
  ⟨by decide, (scheduler_partition_exact 10 4 (by decide)).1 7 (by decide)⟩

theorem flatten_filter_pos (L : List (List ℕ)) :
    (L.filter fun r => 0 < r.length).flatten = L.flatten := by
  induction L with
  | nil => rfl
  | cons a t ih =>
    rw [List.filter_cons]
    by_cases ha : 0 < a.length
    · rw [if_pos (decide_eq_true ha), List.flatten_cons, List.flatten_cons, ih]
    · have ha' : a = [] := by
        cases a with
        | nil => rfl
        | cons b s => simp at ha
      subst ha'
      rw [if_neg (by decide), ih, List.flatten_cons]
      rfl

theorem mem_workerResult_bounds {positions : List ℚ} {N W : ℕ}
    {path : List (ℚ × ℚ)} {vpm : List ℚ} {vp : Viewport} {k x : ℕ}
    (hx : x ∈ workerResult positions N W path vpm vp k) :
    workerStart N W k ≤ x ∧ x < workerEnd N W k := by
  unfold workerResult at hx
  by_cases hk : N ≤ workerStart N W k
  · rw [if_pos hk] at hx; cases hx
  · rw [if_neg hk] at hx
    unfold handleSelect at hx
    by_cases hg : (path.length < 3 ∨ vp.width = 0 ∨ vp.height = 0 ∨ vpm.length ≠ 16)
    · rw [if_pos hg] at hx; cases hx
    · rw [if_neg hg] at hx
      simp only [Option.getD_some] at hx
      have hmem := (List.mem_filter.mp hx).1
      rw [List.mem_range'_1] at hmem
      have hse : workerStart N W k ≤ workerEnd N W k :=
        le_min (Nat.le_add_right _ _) (le_of_not_le hk)
      obtain ⟨ha, hb⟩ := hmem
      constructor
      · exact ha
      · omega

theorem workerResult_pairwise (positions : List ℚ) (N W : ℕ)
    (path : List (ℚ × ℚ)) (vpm : List ℚ) (vp : Viewport) (k : ℕ) :
    (workerResult positions N W path vpm vp k).Pairwise (· < ·) := by
  unfold workerResult
  by_cases hk : N ≤ workerStart N W k
  · rw [if_pos hk]; exact List.Pairwise.nil
  · rw [if_neg hk]
    unfold handleSelect
    by_cases hg : (path.length < 3 ∨ vp.width = 0 ∨ vp.height = 0 ∨ vpm.length ≠ 16)
    · rw [if_pos hg]; exact List.Pairwise.nil
    · rw [if_neg hg]
      exact List.Pairwise.filter _ (List.pairwise_lt_range' _ _)

/-- Claim C2: the merged result of a parallel select is exactly the
concatenation of the per-worker index lists in worker order 0..W-1, and that
merged index list is strictly ascending. -/
theorem merged_selection_concat_ascending (positions : List ℚ) (N W : ℕ)
    (path : List (ℚ × ℚ)) (vpm : List ℚ) (vp : Viewport) :
    clientSelect positions N W path vpm vp
      = ((List.range W).map (workerResult positions N W path vpm vp)).flatten
    ∧ (clientSelect positions N W path vpm vp).Pairwise (· < ·) := by
  have hconcat : clientSelect positions N W path vpm vp
      = ((List.range W).map (workerResult positions N W path vpm vp)).flatten :=
    flatten_filter_pos _
  refine ⟨hconcat, ?_⟩
  rw [hconcat, List.pairwise_flatten]
  constructor
  · intro l hl
    obtain ⟨k, _, rfl⟩ := List.mem_map.mp hl
    exact workerResult_pairwise positions N W path vpm vp k
  · rw [List.pairwise_map]
    have hpw : (List.range W).Pairwise (· < ·) := List.pairwise_lt_range W
    refine hpw.imp ?_
    intro k1 k2 hk x hx y hy
    have hb1 := mem_workerResult_bounds hx
    have hb2 := mem_workerResult_bounds hy
    have hend : workerEnd N W k1 ≤ workerStart N W k2 := by
      have hmul : (k1 + 1) * chunkSize N W ≤ k2 * chunkSize N W :=
        Nat.mul_le_mul_right _ hk
      calc workerEnd N W k1 ≤ workerStart N W k1 + chunkSize N W := min_le_left _ _
        _ = (k1 + 1) * chunkSize N W := (Nat.succ_mul _ _).symm
        _ ≤ k2 * chunkSize N W := hmul
        _ = workerStart N W k2 := rfl
    exact lt_of_lt_of_le hb1.2 (le_trans hend hb2.1)

/- ===== Claim C4: the projection is the standard matrix pipeline ===== -/

/-- The homogeneous point (x, y, z, 1) as a 4-vector. -/
def homogPoint (x y z : ℚ) : Fin 4 → ℚ := fun r =>
  if r.val = 0 then x else if r.val = 1 then y else if r.val = 2 then z else 1

/-- The 16-element column-major transform viewed as a 4x4 matrix: entry
(row r, column c) sits at index 4*c + r. -/
def vpMatrix (vpm : List ℚ) : Matrix (Fin 4) (Fin 4) ℚ :=
  Matrix.of fun r c : Fin 4 => vpm.getD (4 * c.val + r.val) 0

/-- Clip coordinates: the matrix applied to the homogeneous point. -/
def clipCoords (vpm : List ℚ) (x y z : ℚ) : Fin 4 → ℚ :=
  (vpMatrix vpm).mulVec (homogPoint x y z)

theorem clipCoords_apply (vpm : List ℚ) (x y z : ℚ) (r : Fin 4) :
    clipCoords vpm x y z r
      = vpm.getD r.val 0 * x + vpm.getD (4 + r.val) 0 * y
        + vpm.getD (8 + r.val) 0 * z + vpm.getD (12 + r.val) 0 := by
  have e3 : ((3 : Fin 4) : ℕ) = 3 := rfl
  fin_cases r <;>
    simp [clipCoords, vpMatrix, Matrix.mulVec, Matrix.dotProduct, Matrix.of_apply,
      homogPoint, Fin.sum_univ_four, e3]

/-- Claim C4: for every 16-element column-major transform, viewport and point,
the kernel's projection computes the clip coordinates as the matrix applied to
the homogeneous point (x, y, z, 1), excludes the point when cw = 0, otherwise
divides by cw, excludes when ndc.z ≥ 1, and otherwise maps to screen pixels
screenX = (ndc.x+1)*0.5*width and screenY = (-ndc.y+1)*0.5*height. -/
theorem projectPoint_is_matrix_pipeline (vpm : List ℚ) (_hlen : vpm.length = 16)
    (vp : Viewport) (x y z : ℚ) :
    projectPoint vpm vp x y z =
      if clipCoords vpm x y z 3 = 0 then none
      else if clipCoords vpm x y z 2 / clipCoords vpm x y z 3 ≥ 1 then none
      else
        some
          ((clipCoords vpm x y z 0 / clipCoords vpm x y z 3 + 1) * (1 / 2) * vp.width,
           (-(clipCoords vpm x y z 1 / clipCoords vpm x y z 3) + 1) * (1 / 2) * vp.height) := by
  have e3 : ((3 : Fin 4) : ℕ) = 3 := rfl
  have h0 := clipCoords_apply vpm x y z 0
  have h1 := clipCoords_apply vpm x y z 1
  have h2 := clipCoords_apply vpm x y z 2
  have h3 := clipCoords_apply vpm x y z 3
  norm_num [e3] at h0 h1 h2 h3
  rw [h0, h1, h2, h3]
  unfold projectPoint
  simp only [mul_one_div, List.getD_eq_getElem?_getD]

theorem projectPoint_is_matrix_pipeline_witness :
    ([1, 0, 0, 0, 0, 1, 0, 0, 0, 0, 1, 0, 0, 0, 0, 1] : List ℚ).length = 16
    ∧ projectPoint [1, 0, 0, 0, 0, 1, 0, 0, 0, 0, 1, 0, 0, 0, 0, 1] ⟨8, 6⟩
        (1 / 2) (1 / 3) 0 =
      (if clipCoords [1, 0, 0, 0, 0, 1, 0, 0, 0, 0, 1, 0, 0, 0, 0, 1] (1 / 2) (1 / 3) 0 3 = 0
        then none
        else if clipCoords [1, 0, 0, 0, 0, 1, 0, 0, 0, 0, 1, 0, 0, 0, 0, 1] (1 / 2) (1 / 3) 0 2
            / clipCoords [1, 0, 0, 0, 0, 1, 0, 0, 0, 0, 1, 0, 0, 0, 0, 1] (1 / 2) (1 / 3) 0 3 ≥ 1
          then none
          else
            some
              ((clipCoords [1, 0, 0, 0, 0, 1, 0, 0, 0, 0, 1, 0, 0, 0, 0, 1] (1 / 2) (1 / 3) 0 0
                  / clipCoords [1, 0, 0, 0, 0, 1, 0, 0, 0, 0, 1, 0, 0, 0, 0, 1] (1 / 2) (1 / 3) 0 3
                  + 1) * (1 / 2) * (8 : ℚ),
               (-(clipCoords [1, 0, 0, 0, 0, 1, 0, 0, 0, 0, 1, 0, 0, 0, 0, 1] (1 / 2) (1 / 3) 0 1
                  / clipCoords [1, 0, 0, 0, 0, 1, 0, 0, 0, 0, 1, 0, 0, 0, 0, 1] (1 / 2) (1 / 3) 0 3)
                  + 1) * (1 / 2) * (6 : ℚ))) :=
  ⟨rfl,
   projectPoint_is_matrix_pipeline [1, 0, 0, 0, 0, 1, 0, 0, 0, 0, 1, 0, 0, 0, 0, 1]
     rfl ⟨8, 6⟩ (1 / 2) (1 / 3) 0⟩

/- ===== PCD parser model (pcd-parser.ts / point-worker.ts handleParse) =====
The byte-level concerns of the source (UTF-8 decoding of the buffer, the
4096-byte header prefix, DataView offsets into the binary payload and the
Float32 bit patterns) are abstracted: the input is the list of lines of the
decoded text, `pf` abstracts Number.parseFloat on one token (`none` = NaN),
`unpack` abstracts the Float32 bit reinterpretation that splits a packed rgb
float into three channels, and `g` abstracts the per-record DataView reads of
the binary payload. Everything else (tokenising, header switch, the skip and
push discipline of both decode loops, the count) is modelled exactly. -/

/-- Strip leading and trailing whitespace from a character list (`trim`). -/
def trimChars (cs : List Char) : List Char :=
  ((cs.dropWhile Char.isWhitespace).reverse.dropWhile Char.isWhitespace).reverse

/-- Split a character list into maximal whitespace-free words: the token list
of `line.trim().split(/\s+/)`. (For an all-whitespace line JS yields [""],
which hits no switch case and fails every length test exactly as [] does.) -/
def splitWs : List Char → List Char → List (List Char)
  | [], cur => if cur = [] then [] else [cur.reverse]
  | c :: rest, cur =>
    if c.isWhitespace then
      if cur = [] then splitWs rest [] else cur.reverse :: splitWs rest []
    else splitWs rest (c :: cur)

/-- The whitespace-separated tokens of a line. -/
def lineTokens (line : String) : List String :=
  (splitWs line.data []).map List.asString

/-- `line.trim().startsWith("DATA")`. -/
def isDataLine (line : String) : Bool :=
  decide ((trimChars line.data).take 4 = "DATA".data)

/-- `Number.parseInt(s, 10)` as far as the model needs it: the value of the
leading decimal digits, 0 when there are none. (In the source a NaN or a
negative POINTS value makes the binary loop run zero times, as 0 does here.) -/
def jsParseNat (s : String) : ℕ :=
  (s.data.takeWhile Char.isDigit).foldl (fun n c => n * 10 + (c.toNat - 48)) 0

/-- `toLowerCase` for the DATA argument, character by character (the header
keywords are ASCII, for which this matches JavaScript's toLowerCase). -/
def lowerAscii (s : String) : String := (s.data.map Char.toLower).asString

/-- The header fields of parseHeader that the rest of the decoder reads.
SIZE/TYPE/COUNT/VIEWPOINT and the derived offset/rowSize feed only the byte
offsets of the binary payload, which the model folds into the abstract
per-record reader; headerLen is likewise only the payload's byte offset. -/
structure PCDHeaderM where
  version : String
  fields : List String
  width : ℕ
  height : ℕ
  points : ℕ
  data : String

def initHeader : PCDHeaderM :=
  { version := "", fields := [], width := 0, height := 0, points := 0,
    data := "ascii" }

/-- The header loop of parseHeader: update the record on each recognised key
and stop right after a DATA line. A DATA line with no argument stores the
empty marker (the source would throw on `undefined.toLowerCase()`; no claim
exercises that corner and the empty marker selects no decode branch). -/
def parseHeaderLines : List String → PCDHeaderM → PCDHeaderM
  | [], h => h
  | line :: rest, h =>
    match lineTokens line with
    | [] => parseHeaderLines rest h
    | key :: args =>
      if key = "DATA" then { h with data := lowerAscii (args.headD "") }
      else
        parseHeaderLines rest
          (if key = "VERSION" then { h with version := args.headD "" }
           else if key = "FIELDS" then { h with fields := args }
           else if key = "WIDTH" then { h with width := jsParseNat (args.headD "") }
           else if key = "HEIGHT" then { h with height := jsParseNat (args.headD "") }
           else if key = "POINTS" then { h with points := jsParseNat (args.headD "") }
           else h)

/-- Reading field `name` from a tokenised line:
`Number.parseFloat(parts[fields.indexOf(name)])`. A missing field
(indexOf = -1) or an out-of-range part reads undefined, which parses to NaN
(`none`). -/
def fieldTok (pf : String → Option ℚ) (fields parts : List String)
    (name : String) : Token :=
  if name ∈ fields then
    match parts[fields.indexOf name]? with
    | some s => pf s
    | none => none
  else none

/-- One line of the ASCII payload: skipped when it has fewer than 3 tokens or
when any of x, y, z parses to NaN; otherwise it contributes its position
triple together with the unpacked rgb colour when an rgb field exists and the
line has a token for it (tokens are never empty, so JS truthiness is just
presence), or the default white (1, 1, 1). -/
def asciiStep (pf : String → Option ℚ) (unpack : Token → ℚ × ℚ × ℚ)
    (fields : List String) (line : String) : List ℚ × List ℚ :=
  if (lineTokens line).length < 3 then ([], [])
  else
    match fieldTok pf fields (lineTokens line) "x",
        fieldTok pf fields (lineTokens line) "y",
        fieldTok pf fields (lineTokens line) "z" with
    | some x, some y, some z =>
      ([x, y, z],
        match
          (if "rgb" ∈ fields then (lineTokens line)[fields.indexOf "rgb"]? else none)
        with
        | some s =>
          [(unpack (pf s)).1, (unpack (pf s)).2.1, (unpack (pf s)).2.2]
        | none => [1, 1, 1])
    | _, _, _ => ([], [])

/-- The ASCII decode loop over all lines of the decoded text: lines before
the DATA marker are skipped, a line whose trimmed text starts with DATA
(re)sets the started flag and is itself skipped, and every other line after
the marker goes through asciiStep. -/
def asciiScan (pf : String → Option ℚ) (unpack : Token → ℚ × ℚ × ℚ)
    (fields : List String) : List String → Bool → List ℚ × List ℚ
  | [], _ => ([], [])
  | line :: rest, started =>
    if isDataLine line then asciiScan pf unpack fields rest true
    else if started then
      ((asciiStep pf unpack fields line).1
          ++ (asciiScan pf unpack fields rest started).1,
       (asciiStep pf unpack fields line).2
          ++ (asciiScan pf unpack fields rest started).2)
    else asciiScan pf unpack fields rest started

/-- One record of the binary payload, its DataView reads abstracted into the
record value (x, y, z, rgb) with `none` for a NaN read: skip when any of
x, y, z is NaN, else push the triple and either the unpacked rgb (when the
header has an rgb field, i.e. rgbOffset is defined) or the default white. -/
def binStep (unpack : Token → ℚ × ℚ × ℚ) (rgbPresent : Bool)
    (r : Token × Token × Token × Token) : List ℚ × List ℚ :=
  match r with
  | (some x, some y, some z, rgb) =>
    ([x, y, z],
      if rgbPresent then [(unpack rgb).1, (unpack rgb).2.1, (unpack rgb).2.2]
      else [1, 1, 1])
  | _ => ([], [])

/-- The binary decode loop: `points` records read through `g` in index order,
each appended after the previous ones. -/
def binScan (unpack : Token → ℚ × ℚ × ℚ)
    (g : ℕ → Token × Token × Token × Token) (rgbPresent : Bool) :
    ℕ → List ℚ × List ℚ
  | 0 => ([], [])
  | n + 1 =>
    ((binScan unpack g rgbPresent n).1 ++ (binStep unpack rgbPresent (g n)).1,
     (binScan unpack g rgbPresent n).2 ++ (binStep unpack rgbPresent (g n)).2)

/-- The decoder's output record. -/
structure PointCloudM where
  positions : List ℚ
  colors : List ℚ
  count : ℕ
deriving DecidableEq

/-- parsePCD: parse the header from the decoded text, then decode the payload
according to the DATA encoding; any other encoding (binary_compressed
included) falls through both branches and leaves the arrays empty. The count
returned is `positions.length / 3`, exactly as in the source. -/
def parsePCDModel (pf : String → Option ℚ) (unpack : Token → ℚ × ℚ × ℚ)
    (g : ℕ → Token × Token × Token × Token) (lines : List String) : PointCloudM :=
  if (parseHeaderLines lines initHeader).data = "ascii" then
    { positions := (asciiScan pf unpack (parseHeaderLines lines initHeader).fields lines false).1,
      colors := (asciiScan pf unpack (parseHeaderLines lines initHeader).fields lines false).2,
      count := (asciiScan pf unpack (parseHeaderLines lines initHeader).fields lines false).1.length / 3 }
  else if (parseHeaderLines lines initHeader).data = "binary" then
    { positions := (binScan unpack g (decide ("rgb" ∈ (parseHeaderLines lines initHeader).fields))
        (parseHeaderLines lines initHeader).points).1,
      colors := (binScan unpack g (decide ("rgb" ∈ (parseHeaderLines lines initHeader).fields))
        (parseHeaderLines lines initHeader).points).2,
      count := (binScan unpack g (decide ("rgb" ∈ (parseHeaderLines lines initHeader).fields))
        (parseHeaderLines lines initHeader).points).1.length / 3 }
  else { positions := [], colors := [], count := 0 }

/-- A PCD file whose DATA record names the unimplemented binary_compressed
encoding. -/
def binaryCompressedLines : List String :=
  ["VERSION 0.7", "FIELDS x y z", "SIZE 4 4 4", "TYPE F F F", "COUNT 1 1 1",
   "WIDTH 2", "HEIGHT 1", "POINTS 2", "VIEWPOINT 0 0 0 1 0 0 0",
   "DATA binary_compressed", "payload"]

/-- Claim C7 is violated by the code: a buffer whose DATA record names the
unsupported binary_compressed encoding is not rejected with an error; for
every numeric parser, rgb unpacker and binary reader the decoder silently
returns a PointCloud with empty buffers and count 0. -/
theorem parsePCD_binary_compressed_silent_empty
    (pf : String → Option ℚ) (unpack : Token → ℚ × ℚ × ℚ)
    (g : ℕ → Token × Token × Token × Token) :
    parsePCDModel pf unpack g binaryCompressedLines
      = { positions := [], colors := [], count := 0 } := by
  have hd : (parseHeaderLines binaryCompressedLines initHeader).data
      = "binary_compressed" := by decide
  unfold parsePCDModel
  rw [hd, if_neg (by decide), if_neg (by decide)]

/- ===== ASCII/binary scan lemmas ===== -/

theorem asciiStep_skip (pf : String → Option ℚ) (unpack : Token → ℚ × ℚ × ℚ)
    (fields : List String) (line : String)
    (h : fieldTok pf fields (lineTokens line) "x" = none
      ∨ fieldTok pf fields (lineTokens line) "y" = none
      ∨ fieldTok pf fields (lineTokens line) "z" = none) :
    asciiStep pf unpack fields line = ([], []) := by
  unfold asciiStep
  by_cases hl : (lineTokens line).length < 3
  · rw [if_pos hl]
  · rw [if_neg hl]
    rcases hx : fieldTok pf fields (lineTokens line) "x" with _ | xv <;>
      rcases hy : fieldTok pf fields (lineTokens line) "y" with _ | yv <;>
        rcases hz : fieldTok pf fields (lineTokens line) "z" with _ | zv <;>
          simp_all

theorem asciiStep_accept (pf : String → Option ℚ) (unpack : Token → ℚ × ℚ × ℚ)
    (fields : List String) (line : String)
    (hl : ¬ (lineTokens line).length < 3)
    (hx : (fieldTok pf fields (lineTokens line) "x").isSome = true)
    (hy : (fieldTok pf fields (lineTokens line) "y").isSome = true)
    (hz : (fieldTok pf fields (lineTokens line) "z").isSome = true) :
    (asciiStep pf unpack fields line).1.length = 3 := by
  unfold asciiStep
  rw [if_neg hl]
  rcases hx' : fieldTok pf fields (lineTokens line) "x" with _ | xv <;>
    rcases hy' : fieldTok pf fields (lineTokens line) "y" with _ | yv <;>
      rcases hz' : fieldTok pf fields (lineTokens line) "z" with _ | zv <;>
        simp_all

theorem asciiStep_len (pf : String → Option ℚ) (unpack : Token → ℚ × ℚ × ℚ)
    (fields : List String) (line : String) :
    (asciiStep pf unpack fields line).1.length
      = (asciiStep pf unpack fields line).2.length
    ∧ (asciiStep pf unpack fields line).1.length % 3 = 0 := by
  unfold asciiStep
  by_cases hl : (lineTokens line).length < 3
  · rw [if_pos hl]
    exact ⟨rfl, rfl⟩
  · rw [if_neg hl]
    rcases fieldTok pf fields (lineTokens line) "x" with _ | xv <;>
      rcases fieldTok pf fields (lineTokens line) "y" with _ | yv <;>
        rcases fieldTok pf fields (lineTokens line) "z" with _ | zv <;>
          rcases (if "rgb" ∈ fields then (lineTokens line)[fields.indexOf "rgb"]? else none)
            with _ | srgb <;> simp

theorem asciiStep_default (pf : String → Option ℚ) (unpack : Token → ℚ × ℚ × ℚ)
    (fields : List String) (line : String) (hrgb : "rgb" ∉ fields) :
    (asciiStep pf unpack fields line).2
      = List.replicate (asciiStep pf unpack fields line).1.length 1 := by
  unfold asciiStep
  by_cases hl : (lineTokens line).length < 3
  · rw [if_pos hl]
    rfl
  · rw [if_neg hl]
    rcases fieldTok pf fields (lineTokens line) "x" with _ | xv <;>
      rcases fieldTok pf fields (lineTokens line) "y" with _ | yv <;>
        rcases fieldTok pf fields (lineTokens line) "z" with _ | zv <;>
          simp [hrgb]

theorem asciiScan_cons_true (pf : String → Option ℚ) (unpack : Token → ℚ × ℚ × ℚ)
    (fields : List String) (line : String) (rest : List String)
    (hd : isDataLine line = false) :
    asciiScan pf unpack fields (line :: rest) true
      = ((asciiStep pf unpack fields line).1
            ++ (asciiScan pf unpack fields rest true).1,
         (asciiStep pf unpack fields line).2
            ++ (asciiScan pf unpack fields rest true).2) := by
  simp [asciiScan, hd]

theorem asciiScan_true_append (pf : String → Option ℚ) (unpack : Token → ℚ × ℚ × ℚ)
    (fields : List String) (L1 L2 : List String) :
    asciiScan pf unpack fields (L1 ++ L2) true
      = ((asciiScan pf unpack fields L1 true).1
            ++ (asciiScan pf unpack fields L2 true).1,
         (asciiScan pf unpack fields L1 true).2
            ++ (asciiScan pf unpack fields L2 true).2) := by
  induction L1 with
  | nil => simp [asciiScan]
  | cons line rest ih =>
    by_cases hd : isDataLine line = true
    · simp [asciiScan, hd, ih]
    · simp [asciiScan, hd, ih]

theorem asciiScan_len (pf : String → Option ℚ) (unpack : Token → ℚ × ℚ × ℚ)
    (fields : List String) (L : List String) :
    ∀ b, (asciiScan pf unpack fields L b).1.length
        = (asciiScan pf unpack fields L b).2.length
      ∧ (asciiScan pf unpack fields L b).1.length % 3 = 0 := by
  induction L with
  | nil => intro b; exact ⟨rfl, rfl⟩
  | cons line rest ih =>
    intro b
    by_cases hd : isDataLine line = true
    · simp only [asciiScan, hd, if_true]
      exact ih true
    · cases b
      · simp only [asciiScan, hd, if_false, Bool.false_eq_true, if_neg]
        exact ih false
      · have hs := asciiStep_len pf unpack fields line
        have ihr := ih true
        simp [asciiScan, hd, List.length_append]
        omega

theorem asciiScan_default (pf : String → Option ℚ) (unpack : Token → ℚ × ℚ × ℚ)
    (fields : List String) (hrgb : "rgb" ∉ fields) (L : List String) :
    ∀ b, (asciiScan pf unpack fields L b).2
      = List.replicate (asciiScan pf unpack fields L b).1.length 1 := by
  induction L with
  | nil => intro b; rfl
  | cons line rest ih =>
    intro b
    by_cases hd : isDataLine line = true
    · simp only [asciiScan, hd, if_true]
      exact ih true
    · cases b
      · simp only [asciiScan, hd, if_false, Bool.false_eq_true, if_neg]
        exact ih false
      · have hstep := asciiStep_default pf unpack fields line hrgb
        simp [asciiScan, hd, List.length_append]
        rw [hstep, ih true, ← List.replicate_add]

theorem binStep_len (unpack : Token → ℚ × ℚ × ℚ) (rgbPresent : Bool)
    (r : Token × Token × Token × Token) :
    (binStep unpack rgbPresent r).1.length = (binStep unpack rgbPresent r).2.length
    ∧ (binStep unpack rgbPresent r).1.length % 3 = 0 := by
  obtain ⟨x, y, z, c⟩ := r
  rcases x with _ | xv <;> rcases y with _ | yv <;> rcases z with _ | zv <;>
    cases rgbPresent <;> simp [binStep]

theorem binStep_default (unpack : Token → ℚ × ℚ × ℚ)
    (r : Token × Token × Token × Token) :
    (binStep unpack false r).2
      = List.replicate (binStep unpack false r).1.length 1 := by
  obtain ⟨x, y, z, c⟩ := r
  rcases x with _ | xv <;> rcases y with _ | yv <;> rcases z with _ | zv <;>
    simp [binStep]

theorem binScan_len (unpack : Token → ℚ × ℚ × ℚ)
    (g : ℕ → Token × Token × Token × Token) (rgbPresent : Bool) (points : ℕ) :
    (binScan unpack g rgbPresent points).1.length
      = (binScan unpack g rgbPresent points).2.length
    ∧ (binScan unpack g rgbPresent points).1.length % 3 = 0 := by
  induction points with
  | zero => exact ⟨rfl, rfl⟩
  | succ n ih =>
    have hs := binStep_len unpack rgbPresent (g n)
    simp [binScan, List.length_append]
    omega

theorem binScan_default (unpack : Token → ℚ × ℚ × ℚ)
    (g : ℕ → Token × Token × Token × Token) (points : ℕ) :
    (binScan unpack g false points).2
      = List.replicate (binScan unpack g false points).1.length 1 := by
  induction points with
  | zero => rfl
  | succ n ih =>
    simp [binScan, List.length_append]
    rw [ih, binStep_default unpack (g n), ← List.replicate_add]

/-- Claim C8: a payload record whose x, y or z value parses as NaN is
silently skipped — the decode of the surrounding lines is exactly the decode
with that line absent — and relative to the clean payload in which the same
slot holds a well-formed record the accepted count is exactly one smaller;
the parse is not aborted. -/
theorem malformed_record_skipped (pf : String → Option ℚ)
    (unpack : Token → ℚ × ℚ × ℚ) (fields : List String)
    (pre post : List String) (bad good : String)
    (hbad : fieldTok pf fields (lineTokens bad) "x" = none
      ∨ fieldTok pf fields (lineTokens bad) "y" = none
      ∨ fieldTok pf fields (lineTokens bad) "z" = none)
    (hbadD : isDataLine bad = false)
    (hgoodD : isDataLine good = false)
    (hglen : ¬ (lineTokens good).length < 3)
    (hgx : (fieldTok pf fields (lineTokens good) "x").isSome = true)
    (hgy : (fieldTok pf fields (lineTokens good) "y").isSome = true)
    (hgz : (fieldTok pf fields (lineTokens good) "z").isSome = true) :
    asciiScan pf unpack fields (pre ++ bad :: post) true
      = asciiScan pf unpack fields (pre ++ post) true
    ∧ (asciiScan pf unpack fields (pre ++ good :: post) true).1.length / 3
      = (asciiScan pf unpack fields (pre ++ bad :: post) true).1.length / 3 + 1 := by
  have hbstep := asciiStep_skip pf unpack fields bad hbad
  have hgstep := asciiStep_accept pf unpack fields good hglen hgx hgy hgz
  have hbad_eq : asciiScan pf unpack fields (bad :: post) true
      = asciiScan pf unpack fields post true := by
    rw [asciiScan_cons_true pf unpack fields bad post hbadD, hbstep]
    simp
  constructor
  · rw [asciiScan_true_append pf unpack fields pre (bad :: post),
      asciiScan_true_append pf unpack fields pre post, hbad_eq]
  · have len_good : (asciiScan pf unpack fields (good :: post) true).1.length
        = 3 + (asciiScan pf unpack fields post true).1.length := by
      rw [asciiScan_cons_true pf unpack fields good post hgoodD]
      simp [List.length_append, hgstep]
    have len1 : (asciiScan pf unpack fields (pre ++ good :: post) true).1.length
        = (asciiScan pf unpack fields pre true).1.length
          + (3 + (asciiScan pf unpack fields post true).1.length) := by
      rw [asciiScan_true_append pf unpack fields pre (good :: post)]
      simp [List.length_append, len_good]
    have len2 : (asciiScan pf unpack fields (pre ++ bad :: post) true).1.length
        = (asciiScan pf unpack fields pre true).1.length
          + (asciiScan pf unpack fields post true).1.length := by
      rw [asciiScan_true_append pf unpack fields pre (bad :: post), hbad_eq]
      simp [List.length_append]
    have hpre := (asciiScan_len pf unpack fields pre true).2
    have hpost := (asciiScan_len pf unpack fields post true).2
    rw [len1, len2]
    omega

/-- Claim C9: every decode yields positions and colors of length exactly
3 * count, where count is the number of accepted records, and when the header
declares no rgb field the colour buffer is entirely the default white 1s. -/
theorem parsePCD_buffer_invariant (pf : String → Option ℚ)
    (unpack : Token → ℚ × ℚ × ℚ) (g : ℕ → Token × Token × Token × Token)
    (lines : List String) :
    (parsePCDModel pf unpack g lines).positions.length
      = 3 * (parsePCDModel pf unpack g lines).count
    ∧ (parsePCDModel pf unpack g lines).colors.length
      = 3 * (parsePCDModel pf unpack g lines).count
    ∧ ("rgb" ∉ (parseHeaderLines lines initHeader).fields →
        (parsePCDModel pf unpack g lines).colors
          = List.replicate (3 * (parsePCDModel pf unpack g lines).count) 1) := by
  unfold parsePCDModel
  by_cases ha : (parseHeaderLines lines initHeader).data = "ascii"
  · rw [if_pos ha]
    have hlen := asciiScan_len pf unpack
      (parseHeaderLines lines initHeader).fields lines false
    obtain ⟨he, hm⟩ := hlen
    refine ⟨by dsimp; omega, by dsimp; omega, ?_⟩
    intro hrgb
    have hdef := asciiScan_default pf unpack
      (parseHeaderLines lines initHeader).fields hrgb lines false
    dsimp
    rw [hdef]
    have hc : (asciiScan pf unpack (parseHeaderLines lines initHeader).fields
        lines false).1.length
        = 3 * ((asciiScan pf unpack (parseHeaderLines lines initHeader).fields
            lines false).1.length / 3) := by omega
    rw [← hc]
  · rw [if_neg ha]
    by_cases hb : (parseHeaderLines lines initHeader).data = "binary"
    · rw [if_pos hb]
      have hlen := binScan_len unpack g
        (decide ("rgb" ∈ (parseHeaderLines lines initHeader).fields))
        (parseHeaderLines lines initHeader).points
      obtain ⟨he, hm⟩ := hlen
      refine ⟨by dsimp; omega, by dsimp; omega, ?_⟩
      intro hrgb
      have hfalse : (decide ("rgb" ∈ (parseHeaderLines lines initHeader).fields))
          = false := by
        simp [hrgb]
      rw [hfalse] at he hm ⊢
      have hdef := binScan_default unpack g (parseHeaderLines lines initHeader).points
      dsimp
      rw [hdef]
      have hc : (binScan unpack g false (parseHeaderLines lines initHeader).points).1.length
          = 3 * ((binScan unpack g false
              (parseHeaderLines lines initHeader).points).1.length / 3) := by omega
      rw [← hc]
    · rw [if_neg hb]
      exact ⟨rfl, rfl, fun _ => rfl⟩

/-- Concrete interpretations for the witnesses: a numeric parser that accepts
exactly the token "1", an rgb unpacker and a binary reader. -/
def pfW : String → Option ℚ := fun s => if s = "1" then some 1 else none

def unpackW : Token → ℚ × ℚ × ℚ := fun _ => (0, 0, 0)

def gW : ℕ → Token × Token × Token × Token := fun _ => (none, none, none, none)

def asciiLinesW : List String := ["FIELDS x y z", "DATA ascii", "1 1 1", "junk"]

theorem malformed_record_skipped_witness :
    (asciiScan pfW unpackW ["x", "y", "z"] ([] ++ "oops 1 1" :: ["1 1 1"]) true
      = asciiScan pfW unpackW ["x", "y", "z"] ([] ++ ["1 1 1"]) true)
    ∧ (asciiScan pfW unpackW ["x", "y", "z"] ([] ++ "1 1 1" :: ["1 1 1"]) true).1.length / 3
      = (asciiScan pfW unpackW ["x", "y", "z"] ([] ++ "oops 1 1" :: ["1 1 1"]) true).1.length / 3
        + 1 :=
  malformed_record_skipped pfW unpackW ["x", "y", "z"] [] ["1 1 1"] "oops 1 1" "1 1 1"
    (Or.inl (by decide)) (by decide) (by decide) (by decide) (by decide) (by decide)
    (by decide)

theorem parsePCD_buffer_invariant_witness :
    ((parsePCDModel pfW unpackW gW asciiLinesW).positions.length
      = 3 * (parsePCDModel pfW unpackW gW asciiLinesW).count)
    ∧ ((parsePCDModel pfW unpackW gW asciiLinesW).colors.length
      = 3 * (parsePCDModel pfW unpackW gW asciiLinesW).count)
    ∧ (parsePCDModel pfW unpackW gW asciiLinesW).colors
        = List.replicate (3 * (parsePCDModel pfW unpackW gW asciiLinesW).count) 1 :=
  have h := parsePCD_buffer_invariant pfW unpackW gW asciiLinesW
  ⟨h.1, h.2.1, h.2.2 (by decide)⟩

/- ===== Worker runtime (point-worker.ts globals and ctx.onmessage) ===== -/

/-- The select message payload of point-worker.ts. -/
structure SelectPayload where
  path : List (ℚ × ℚ)
  viewProjectionMatrix : List ℚ
  viewport : Viewport
  startIndex : Option ℕ
  endIndex : Option ℕ

/-- The worker's module-level mutable state: positions and colors are null
until an init message arrives, pointCount starts at 0. -/
structure WorkerState where
  positions : Option (List ℚ)
  colors : Option (List ℚ)
  pointCount : ℕ

/-- The four message kinds of ctx.onmessage. A parse message carries the
decoded text lines of its buffer together with the abstract binary reader. -/
inductive WorkerMsg where
  | init (data : PointCloudM)
  | parse (lines : List String) (g : ℕ → Token × Token × Token × Token)
  | select (p : SelectPayload)
  | color (indices : List ℕ) (rgb : ℚ × ℚ × ℚ)

inductive WorkerReply where
  | initAck (count : ℕ)
  | parsed (data : PointCloudM)
  | selected (indices : List ℕ)
  | colored (colors : List ℚ)
  | failed (message : String)

/-- handleColor: write the colour triple at base = index*3 for each index,
in order. -/
def applyColor (cs : List ℚ) (indices : List ℕ) (rgb : ℚ × ℚ × ℚ) : List ℚ :=
  indices.foldl
    (fun acc i =>
      ((acc.set (i * 3) rgb.1).set (i * 3 + 1) rgb.2.1).set (i * 3 + 2) rgb.2.2)
    cs

/-- One step of ctx.onmessage: init stores the buffers into the globals,
parse decodes without touching the globals (the source deliberately does not
save the result, as its comment explains), select reads positions and
pointCount and runs handleSelect, color writes into the colors buffer and
returns a copy of it. A select or color call before init throws the source's
error message and the state is unchanged. -/
def workerStep (pf : String → Option ℚ) (unpack : Token → ℚ × ℚ × ℚ)
    (s : WorkerState) (m : WorkerMsg) : WorkerState × WorkerReply :=
  match m with
  | .init d => (⟨some d.positions, some d.colors, d.count⟩, .initAck d.count)
  | .parse lines g => (s, .parsed (parsePCDModel pf unpack g lines))
  | .select p =>
    match s.positions with
    | none => (s, .failed "Point data is not initialized")
    | some pos =>
      (s, .selected (handleSelect pos s.pointCount p.path p.viewProjectionMatrix
        p.viewport p.startIndex p.endIndex))
  | .color indices rgb =>
    match s.colors with
    | none => (s, .failed "Color buffer is not initialized")
    | some cs =>
      ({ s with colors := some (applyColor cs indices rgb) },
       .colored (applyColor cs indices rgb))

/-- Claim C10: select is read-only on the worker state: a single select step
returns the state unchanged, and any sequence of select calls leaves
positions, colors and pointCount exactly as they were (element for element,
since the state is returned as-is). -/
theorem select_is_readonly (pf : String → Option ℚ)
    (unpack : Token → ℚ × ℚ × ℚ) :
    (∀ (s : WorkerState) (p : SelectPayload),
        (workerStep pf unpack s (.select p)).1 = s)
    ∧ ∀ (s : WorkerState) (ps : List SelectPayload),
        ps.foldl (fun st p => (workerStep pf unpack st (.select p)).1) s = s := by
  have hstep : ∀ (s : WorkerState) (p : SelectPayload),
      (workerStep pf unpack s (.select p)).1 = s := by
    intro s p
    rcases hsp : s.positions with _ | pos <;> simp [workerStep, hsp]
  refine ⟨hstep, ?_⟩
  intro s ps
  induction ps generalizing s with
  | nil => rfl
  | cons p t ih => rw [List.foldl_cons, hstep s p, ih]
